import Mathlib

/-!
# Verification of the C_Algorithms sorting routines

Shallow embedding of the sorting routines of this repository
(`heapsort.c`, the array sorts and quicksort in `sorting.c`) and proofs of
the specification's claims about them.

Conventions of the embedding:
* A C `char` array is modelled as a `List Int`; only the order on the stored
  values matters to every routine, so the restriction to single-byte values
  is immaterial to the statements.
* Array reads are modelled with `List.getD · 0`; where the C code can read
  or write out of bounds (only reachable in `Heap_popS` for size 0, whose
  `last_index` is the int32 value `-1`), a checked variant with `Int`
  indices and `Option` results is used, so an out-of-bounds access is a
  `none` outcome rather than silent garbage.
* `int32_t`/`unsigned int`/`uint16_t` index arithmetic is modelled on
  `Nat`/`Int` with explicit `% 2^w` at the operations where the C code can
  wrap (`Sort_bubble_array`'s `array_length - 1`, `Sort_quicksort_array`'s
  `(index_end+1) - index_start` and `pivot ± 1`).
-/

namespace CAlgos

/-! ## Basic list access lemmas -/

theorem getD_set_self (a : List Int) (i : Nat) (v : Int) (h : i < a.length) :
    (a.set i v).getD i 0 = v := by
  induction a generalizing i with
  | nil => simp at h
  | cons x t ih =>
    cases i with
    | zero => simp
    | succ k =>
      have hk : k < t.length := by simpa using h
      simpa [List.getD_cons_succ] using ih k hk

theorem getD_set_ne (a : List Int) (i j : Nat) (v : Int) (h : i ≠ j) :
    (a.set i v).getD j 0 = a.getD j 0 := by
  induction a generalizing i j with
  | nil => simp
  | cons x t ih =>
    cases i with
    | zero =>
      cases j with
      | zero => exact absurd rfl h
      | succ m => simp [List.getD_cons_succ]
    | succ k =>
      cases j with
      | zero => simp
      | succ m => simpa [List.getD_cons_succ] using ih k m (by omega)

theorem getD_oob (a : List Int) (i : Nat) (h : a.length ≤ i) :
    a.getD i 0 = 0 := by
  induction a generalizing i with
  | nil => simp
  | cons x t ih =>
    cases i with
    | zero => simp at h
    | succ k =>
      have hk : t.length ≤ k := by simpa using h
      simpa [List.getD_cons_succ] using ih k hk

theorem set_getD_self (a : List Int) (i : Nat) :
    a.set i (a.getD i 0) = a := by
  induction a generalizing i with
  | nil => simp
  | cons x t ih =>
    cases i with
    | zero => simp
    | succ k => simpa [List.getD_cons_succ] using ih k

/-! ## The three-assignment swap idiom

Every routine of the repository exchanges two array cells through a
temporary: `temp = a[i]; a[i] = a[j]; a[j] = temp;`.  This is the literal
translation of those three statements. -/

def swap (a : List Int) (i j : Nat) : List Int :=
  (a.set i (a.getD j 0)).set j (a.getD i 0)

@[simp] theorem length_swap (a : List Int) (i j : Nat) :
    (swap a i j).length = a.length := by
  simp [swap]

theorem swap_self (a : List Int) (i : Nat) : swap a i i = a := by
  rw [swap, set_getD_self, set_getD_self]

theorem getD_swap_fst (a : List Int) (i j : Nat) (hi : i < a.length) :
    (swap a i j).getD i 0 = a.getD j 0 := by
  rcases eq_or_ne i j with rfl | h
  · rw [swap_self]
  · rw [swap, getD_set_ne _ _ _ _ (Ne.symm h), getD_set_self _ _ _ hi]

theorem getD_swap_snd (a : List Int) (i j : Nat) (hj : j < a.length) :
    (swap a i j).getD j 0 = a.getD i 0 := by
  rw [swap, getD_set_self]
  simpa using hj

theorem getD_swap_other (a : List Int) (i j k : Nat) (hki : k ≠ i) (hkj : k ≠ j) :
    (swap a i j).getD k 0 = a.getD k 0 := by
  rw [swap, getD_set_ne _ _ _ _ (Ne.symm hkj), getD_set_ne _ _ _ _ (Ne.symm hki)]

theorem cons_set_perm (t : List Int) (m : Nat) (x : Int) (h : m < t.length) :
    (t.getD m 0 :: t.set m x).Perm (x :: t) := by
  induction t generalizing m with
  | nil => simp at h
  | cons y s ih =>
    cases m with
    | zero => simpa using List.Perm.swap x y s
    | succ k =>
      have hk : k < s.length := by simpa using h
      have h1 : (s.getD k 0 :: y :: s.set k x).Perm (y :: s.getD k 0 :: s.set k x) :=
        List.Perm.swap y (s.getD k 0) (s.set k x)
      have h2 : (y :: s.getD k 0 :: s.set k x).Perm (y :: x :: s) := (ih k hk).cons y
      have h3 : (y :: x :: s).Perm (x :: y :: s) := List.Perm.swap x y s
      simpa [List.getD_cons_succ] using (h1.trans (h2.trans h3))

theorem swap_perm (a : List Int) (i j : Nat) (hi : i < a.length) (hj : j < a.length) :
    (swap a i j).Perm a := by
  induction a generalizing i j with
  | nil => simp at hi
  | cons x t ih =>
    cases i with
    | zero =>
      cases j with
      | zero => simp [swap_self]
      | succ m =>
        have hm : m < t.length := by simpa using hj
        simpa [swap, List.getD_cons_succ] using cons_set_perm t m x hm
    | succ k =>
      cases j with
      | zero =>
        have hk : k < t.length := by simpa using hi
        simpa [swap, List.getD_cons_succ] using cons_set_perm t k x hk
      | succ m =>
        have hk : k < t.length := by simpa using hi
        have hm : m < t.length := by simpa using hj
        simpa [swap, List.getD_cons_succ] using (ih k m hk hm).cons x

/-! ## heapsort.c — the implicit max-heap

Index arithmetic of the C code: `parent = (i-1) >> 1`, `left = 2i+1`,
`right = 2i+2`, all on `int32_t`.  Inside the heap routines every index in
use is non-negative, so they are modelled on `Nat`; the only negative
index the C code ever produces (`last_index = -1` for a size-0 sort) is
kept as an `Int` in the checked entry point further below. -/

/-- The `child` local of `Heap_sift_down`'s loop body: `child = left_child;
if (right_child <= last_index) child = (the_array[left_child] >
the_array[right_child]) ? left_child : right_child;`. -/
def sdChild (a : List Int) (current_index last_index : Nat) : Nat :=
  if 2 * current_index + 2 ≤ last_index then
    (if a.getD (2 * current_index + 2) 0 < a.getD (2 * current_index + 1) 0 then
      2 * current_index + 1
    else 2 * current_index + 2)
  else 2 * current_index + 1

theorem sdChild_cases (a : List Int) (c l : Nat) :
    (sdChild a c l = 2 * c + 1 ∨ sdChild a c l = 2 * c + 2) ∧
      (2 * c + 1 ≤ l → sdChild a c l ≤ l) := by
  unfold sdChild
  split <;> [skip; omega]
  split <;> omega

theorem sdChild_max (a : List Int) (c l : Nat) (j : Nat)
    (hj : j = 2 * c + 1 ∨ j = 2 * c + 2) (hjl : j ≤ l) :
    a.getD j 0 ≤ a.getD (sdChild a c l) 0 := by
  unfold sdChild
  split
  · split
    · rcases hj with rfl | rfl
      · exact le_refl _
      · omega
    · rcases hj with rfl | rfl
      · omega
      · exact le_refl _
  · rcases hj with rfl | rfl
    · exact le_refl _
    · omega

/-- `Heap_sift_down(the_array, current_index, last_index)` from heapsort.c:
while the current node has a left child inside the heap region
(`left_child <= last_index`), pick the larger child (the right one on
ties), swap if it exceeds the current value, and continue from the child;
stop otherwise. -/
def Heap_sift_down (a : List Int) (current_index last_index : Nat) : List Int :=
  if 2 * current_index + 1 ≤ last_index then
    if a.getD current_index 0 < a.getD (sdChild a current_index last_index) 0 then
      Heap_sift_down (swap a current_index (sdChild a current_index last_index))
        (sdChild a current_index last_index) last_index
    else a
  else a
termination_by last_index - current_index
decreasing_by
  have h := sdChild_cases a current_index last_index
  omega

theorem sift_down_of_leaf (a : List Int) (c l : Nat) (h : ¬ 2 * c + 1 ≤ l) :
    Heap_sift_down a c l = a := by
  rw [Heap_sift_down, if_neg h]

theorem sift_down_of_stop (a : List Int) (c l : Nat) (h : 2 * c + 1 ≤ l)
    (hc : ¬ a.getD c 0 < a.getD (sdChild a c l) 0) :
    Heap_sift_down a c l = a := by
  rw [Heap_sift_down, if_pos h, if_neg hc]

theorem sift_down_of_swap (a : List Int) (c l : Nat) (h : 2 * c + 1 ≤ l)
    (hc : a.getD c 0 < a.getD (sdChild a c l) 0) :
    Heap_sift_down a c l =
      Heap_sift_down (swap a c (sdChild a c l)) (sdChild a c l) l := by
  rw [Heap_sift_down, if_pos h, if_pos hc]

/-- Induction along the recursion of `Heap_sift_down`. -/
theorem sift_down_induction (l : Nat) (P : List Int → Nat → Prop)
    (leaf : ∀ a c, ¬ 2 * c + 1 ≤ l → P a c)
    (stop : ∀ a c, 2 * c + 1 ≤ l → ¬ a.getD c 0 < a.getD (sdChild a c l) 0 → P a c)
    (step : ∀ a c, 2 * c + 1 ≤ l → a.getD c 0 < a.getD (sdChild a c l) 0 →
      P (swap a c (sdChild a c l)) (sdChild a c l) → P a c) :
    ∀ a c, P a c := by
  have main : ∀ (n : Nat) (a : List Int) (c : Nat), l + 1 - c ≤ n → P a c := by
    intro n
    induction n with
    | zero => intro a c hc; exact leaf a c (by omega)
    | succ n ih =>
      intro a c hc
      by_cases hleft : 2 * c + 1 ≤ l
      · by_cases hcond : a.getD c 0 < a.getD (sdChild a c l) 0
        · have hch := sdChild_cases a c l
          exact step a c hleft hcond (ih _ _ (by omega))
        · exact stop a c hleft hcond
      · exact leaf a c hleft
  intro a c
  exact main (l + 1 - c) a c le_rfl

/-- `Heap_sift_up(the_array, current_index)` from heapsort.c: while the
parent exists (`parent >= 0`, i.e. the current index is not the root) and
is smaller than the current value, swap with it and continue from the
parent's index. -/
def Heap_sift_up (a : List Int) (current_index : Nat) : List Int :=
  if current_index = 0 then a      -- parent = (0-1)>>1 = -1, loop not entered
  else
    let parent := (current_index - 1) / 2
    if a.getD parent 0 < a.getD current_index 0 then
      Heap_sift_up (swap a current_index parent) parent
    else a
termination_by current_index
decreasing_by omega

/-- The loop of bottom-up heap construction `Heap_max_heapify_bu`:
`for(; first_non_leaf >= 0; first_non_leaf--) Heap_sift_down(...)`,
processing indices `k, k-1, ..., 0`. -/
def buLoop (a : List Int) (last_index : Nat) : Nat → List Int
  | 0 => Heap_sift_down a 0 last_index
  | k + 1 => buLoop (Heap_sift_down a (k + 1) last_index) last_index k

/-- The array after `Heap_max_heapify_bu(the_array, size)`:
`last_index = size-1` and `first_non_leaf = (last_index-1) >> 1` are int32
values, so for `size <= 1` `first_non_leaf` is negative and the loop body
never runs; for `size >= 2` the loop runs `first_non_leaf = (size-2)/2`
down to `0`. -/
def heapifyArr (a : List Int) : List Int :=
  if a.length ≤ 1 then a else buLoop a (a.length - 1) ((a.length - 2) / 2)

/-- `Heap_max_heapify_bu` also returns the heap descriptor it allocated,
whose fields are set to `last_index = size-1` (an `int32_t`, hence `-1`
for an empty array) and `size`; the array field is the rearranged array. -/
def Heap_max_heapify_bu (a : List Int) : List Int × Int :=
  (heapifyArr a, (a.length : Int) - 1)

/-- The extraction loop of `Heap_popS`, for a non-negative starting
`last_index` (modelled here on `Nat`): while `last_index` is nonzero, swap
the root with the element at `last_index`, decrement it, and sift the new
root down over the shrunk region. -/
def popLoop (a : List Int) : Nat → List Int
  | 0 => a
  | m + 1 => popLoop (Heap_sift_down (swap a 0 (m + 1)) 0 m) m

/-- The extraction loop instrumented with the number of executed cycles
(one cycle = swap root with `the_array[last_index]`, decrement
`last_index`, sift down from the root). -/
def popLoopN (a : List Int) : Nat → List Int × Nat
  | 0 => (a, 0)
  | m + 1 =>
    let r := popLoopN (Heap_sift_down (swap a 0 (m + 1)) 0 m) m
    (r.1, r.2 + 1)

/-! ### Checked entry point: int32 `last_index`, out-of-bounds access = `none`

`Heap_popS` reads `last_index` from the descriptor built by heapify; for a
size-0 array that value is `-1`, which is nonzero, so the C loop body runs
and touches `the_array[-1]`.  The checked model makes that access a `none`
outcome instead of undefined behaviour. -/

/-- Checked array read at an `int32` index. -/
def getC (a : List Int) (i : Int) : Option Int :=
  if 0 ≤ i ∧ i < (a.length : Int) then some (a.getD i.toNat 0) else none

/-- Checked array write at an `int32` index. -/
def setC (a : List Int) (i : Int) (v : Int) : Option (List Int) :=
  if 0 ≤ i ∧ i < (a.length : Int) then some (a.set i.toNat v) else none

/-- Checked three-assignment swap `temp = a[i]; a[i] = a[j]; a[j] = temp`. -/
def swapC (a : List Int) (i j : Int) : Option (List Int) :=
  match getC a i, getC a j with
  | some vi, some vj =>
    match setC a i vj with
    | some a1 => setC a1 j vi
    | none => none
  | _, _ => none

theorem swapC_bounds (a : List Int) (i j : Int) (b : List Int)
    (h : swapC a i j = some b) :
    0 ≤ i ∧ i < (a.length : Int) ∧ 0 ≤ j ∧ j < (a.length : Int) := by
  by_cases hi : 0 ≤ i ∧ i < (a.length : Int)
  · by_cases hj : 0 ≤ j ∧ j < (a.length : Int)
    · exact ⟨hi.1, hi.2, hj.1, hj.2⟩
    · simp [swapC, getC, hi, hj] at h
  · simp [swapC, getC, hi] at h

theorem swapC_in_bounds (a : List Int) (i j : Int)
    (hi : 0 ≤ i ∧ i < (a.length : Int)) (hj : 0 ≤ j ∧ j < (a.length : Int)) :
    swapC a i j = some (swap a i.toNat j.toNat) := by
  have hj' : 0 ≤ j ∧ j < ((a.set i.toNat (a.getD j.toNat 0)).length : Int) := by
    simpa using hj
  simp [swapC, getC, setC, hi, hj, hj', swap]

/-- The extraction loop of `Heap_popS` on the int32 `last_index`:
`while (last_index) { swap root/last; last_index--; sift down }`.
All sift-down accesses stay inside `[0, last_index-1]`, which the
successful swap has just proved in-bounds, so the pure `Heap_sift_down`
is used after the checked swap. -/
def popLoopC (a : List Int) (last_index : Int) : Option (List Int) :=
  if last_index = 0 then some a
  else
    match h : swapC a 0 last_index with
    | some a2 => popLoopC (Heap_sift_down a2 0 (last_index - 1).toNat) (last_index - 1)
    | none => none
termination_by last_index.toNat
decreasing_by
  have hb := swapC_bounds a 0 last_index _ h
  omega

/-- `Heap_popS(heap_ref)`: runs the extraction loop over the descriptor's
array and `last_index` (then frees the descriptor, which has no observable
effect on the array). -/
def Heap_popS (heap : List Int × Int) : Option (List Int) :=
  popLoopC heap.1 heap.2

/-- `Heap_sort(the_array, size)`: heapify bottom-up, then pop-sort. -/
def Heap_sort (a : List Int) : Option (List Int) :=
  Heap_popS (Heap_max_heapify_bu a)

/-! ## Ancestor chains in the implicit heap -/

/-- Parent index in the implicit heap: the C `(j-1) >> 1` (zero maps to
zero on `Nat`, which is only ever used below the guard `0 < j`). -/
def parentIdx (j : Nat) : Nat := (j - 1) / 2

/-- `j` lies in the subtree rooted at `r`: iterating `parentIdx` from `j`
reaches `r`. -/
def InSub (r j : Nat) : Prop := ∃ k, parentIdx^[k] j = r

theorem InSub_refl (r : Nat) : InSub r r := ⟨0, rfl⟩

theorem iterate_parentIdx_le (k j : Nat) : parentIdx^[k] j ≤ j := by
  induction k with
  | zero => simp
  | succ n ih =>
    rw [Function.iterate_succ_apply']
    have : parentIdx (parentIdx^[n] j) ≤ parentIdx^[n] j := by
      unfold parentIdx; omega
    omega

theorem InSub_le {r j : Nat} (h : InSub r j) : r ≤ j := by
  obtain ⟨k, hk⟩ := h
  have := iterate_parentIdx_le k j
  omega

theorem InSub_child {r j : Nat} (hj : j = 2 * r + 1 ∨ j = 2 * r + 2) :
    InSub r j := by
  refine ⟨1, ?_⟩
  simp only [Function.iterate_one, parentIdx]
  omega

theorem InSub_trans {r s j : Nat} (h1 : InSub r s) (h2 : InSub s j) :
    InSub r j := by
  obtain ⟨k1, hk1⟩ := h1
  obtain ⟨k2, hk2⟩ := h2
  exact ⟨k1 + k2, by rw [Function.iterate_add_apply, hk2, hk1]⟩

theorem not_InSub_of_parentIdx_lt {r j : Nat} (hne : j ≠ r)
    (hlt : parentIdx j < r) : ¬ InSub r j := by
  rintro ⟨k, hk⟩
  cases k with
  | zero => exact hne hk
  | succ n =>
    rw [Function.iterate_succ_apply] at hk
    have := iterate_parentIdx_le n (parentIdx j)
    omega

theorem not_InSub_of_lt {r j : Nat} (h : j < r) : ¬ InSub r j :=
  fun hs => absurd (InSub_le hs) (by omega)

/-! ## Properties of `Heap_sift_down` -/

theorem sift_down_length (l : Nat) : ∀ (a : List Int) (c : Nat),
    (Heap_sift_down a c l).length = a.length := by
  refine sift_down_induction l (fun a c => (Heap_sift_down a c l).length = a.length)
    ?_ ?_ ?_
  · intro a c h; rw [sift_down_of_leaf a c l h]
  · intro a c h hc; rw [sift_down_of_stop a c l h hc]
  · intro a c h hc ih
    rw [sift_down_of_swap a c l h hc, ih, length_swap]

/-- `Heap_sift_down` touches only cells in the subtree of its start index. -/
theorem sift_down_getD_outside (l : Nat) : ∀ (a : List Int) (c : Nat),
    ∀ i, ¬ InSub c i → (Heap_sift_down a c l).getD i 0 = a.getD i 0 := by
  refine sift_down_induction l
    (fun a c => ∀ i, ¬ InSub c i → (Heap_sift_down a c l).getD i 0 = a.getD i 0) ?_ ?_ ?_
  · intro a c h i _; rw [sift_down_of_leaf a c l h]
  · intro a c h hc i _; rw [sift_down_of_stop a c l h hc]
  · intro a c h hc ih i hi
    have hch := (sdChild_cases a c l).1
    have hsub : InSub c (sdChild a c l) := InSub_child hch
    have hic : i ≠ c := fun he => hi (he ▸ InSub_refl c)
    have hichild : ¬ InSub (sdChild a c l) i := fun hs => hi (InSub_trans hsub hs)
    have hicc : i ≠ sdChild a c l := fun he => hichild (he ▸ InSub_refl _)
    rw [sift_down_of_swap a c l h hc, ih i hichild,
      getD_swap_other a c (sdChild a c l) i hic hicc]

/-- `Heap_sift_down` touches only cells at indices `≤ last_index`. -/
theorem sift_down_getD_beyond (l : Nat) : ∀ (a : List Int) (c : Nat),
    ∀ i, l < i → (Heap_sift_down a c l).getD i 0 = a.getD i 0 := by
  refine sift_down_induction l
    (fun a c => ∀ i, l < i → (Heap_sift_down a c l).getD i 0 = a.getD i 0) ?_ ?_ ?_
  · intro a c h i _; rw [sift_down_of_leaf a c l h]
  · intro a c h hc i _; rw [sift_down_of_stop a c l h hc]
  · intro a c h hc ih i hi
    have hch := sdChild_cases a c l
    rw [sift_down_of_swap a c l h hc, ih i hi,
      getD_swap_other a c (sdChild a c l) i (by omega) (by omega)]

theorem sift_down_perm (l : Nat) : ∀ (a : List Int) (c : Nat), l < a.length →
    (Heap_sift_down a c l).Perm a := by
  refine sift_down_induction l
    (fun a c => l < a.length → (Heap_sift_down a c l).Perm a) ?_ ?_ ?_
  · intro a c h _; rw [sift_down_of_leaf a c l h]
  · intro a c h hc _; rw [sift_down_of_stop a c l h hc]
  · intro a c h hc ih hl
    have hch := sdChild_cases a c l
    rw [sift_down_of_swap a c l h hc]
    exact (ih (by simpa using hl)).trans
      (swap_perm a c (sdChild a c l) (by omega) (by omega))

/-- Cells inside the sift region stay pointwise below any bound that held
over the region. -/
theorem sift_down_bound (l : Nat) (x : Int) : ∀ (a : List Int) (c : Nat),
    l < a.length → (∀ i, i ≤ l → a.getD i 0 ≤ x) →
    ∀ i, i ≤ l → (Heap_sift_down a c l).getD i 0 ≤ x := by
  refine sift_down_induction l
    (fun a c => l < a.length → (∀ i, i ≤ l → a.getD i 0 ≤ x) →
      ∀ i, i ≤ l → (Heap_sift_down a c l).getD i 0 ≤ x) ?_ ?_ ?_
  · intro a c h _ hb i hi; rw [sift_down_of_leaf a c l h]; exact hb i hi
  · intro a c h hc _ hb i hi; rw [sift_down_of_stop a c l h hc]; exact hb i hi
  · intro a c h hc ih hl hb i hi
    have hch := sdChild_cases a c l
    rw [sift_down_of_swap a c l h hc]
    refine ih (by simpa using hl) ?_ i hi
    intro k hk
    by_cases hkc : k = c
    · rw [hkc, getD_swap_fst a c (sdChild a c l) (by omega)]
      exact hb _ (by omega)
    · by_cases hkch : k = sdChild a c l
      · rw [hkch, getD_swap_snd a c (sdChild a c l) (by omega)]
        exact hb c (by omega)
      · rw [getD_swap_other a c (sdChild a c l) k hkc hkch]
        exact hb k hk

/-- After a sift-down, the cell at the start index holds either its old
value or the old value of one of its two in-region children. -/
theorem sift_down_root (a : List Int) (c l : Nat) (hl : l < a.length) :
    (Heap_sift_down a c l).getD c 0 = a.getD c 0 ∨
      ∃ j, (j = 2 * c + 1 ∨ j = 2 * c + 2) ∧ j ≤ l ∧
        (Heap_sift_down a c l).getD c 0 = a.getD j 0 := by
  by_cases h : 2 * c + 1 ≤ l
  · by_cases hc : a.getD c 0 < a.getD (sdChild a c l) 0
    · right
      have hch := sdChild_cases a c l
      refine ⟨sdChild a c l, hch.1, hch.2 h, ?_⟩
      rw [sift_down_of_swap a c l h hc,
        sift_down_getD_outside l _ _ c (not_InSub_of_lt (by omega)),
        getD_swap_fst a c (sdChild a c l) (by omega)]
    · left; rw [sift_down_of_stop a c l h hc]
  · left; rw [sift_down_of_leaf a c l h]

/-! ## The max-heap property -/

/-- All parent/child pairs whose parent index is at least `c` and whose
child index is at most `l` are heap-ordered (spec §3: `sequence[parent(i)]
>= sequence[i]`). -/
def heapFrom (a : List Int) (c l : Nat) : Prop :=
  ∀ p j, c ≤ p → j ≤ l → (j = 2 * p + 1 ∨ j = 2 * p + 2) →
    a.getD j 0 ≤ a.getD p 0

/-- The sift-down restoration lemma: if every parent at index `> c` is
heap-ordered over `[·, l]`, sifting down from `c` makes every parent at
index `≥ c` heap-ordered. -/
theorem sift_down_heapFrom (l : Nat) : ∀ (a : List Int) (c : Nat),
    l < a.length → heapFrom a (c + 1) l →
    heapFrom (Heap_sift_down a c l) c l := by
  refine sift_down_induction l
    (fun a c => l < a.length → heapFrom a (c + 1) l →
      heapFrom (Heap_sift_down a c l) c l) ?_ ?_ ?_
  · intro a c h _ hF
    rw [sift_down_of_leaf a c l h]
    intro p j hp hj hcj
    rcases Nat.lt_or_ge c (p : Nat) with hpc | hpc
    · exact hF p j (by omega) hj hcj
    · omega
  · intro a c h hc _ hF
    rw [sift_down_of_stop a c l h hc]
    intro p j hp hj hcj
    rcases Nat.lt_or_ge c (p : Nat) with hpc | hpc
    · exact hF p j (by omega) hj hcj
    · have hpc' : p = c := by omega
      subst hpc'
      exact le_trans (sdChild_max a p l j hcj hj) (not_lt.mp hc)
  · intro a c h hc ih hl hF
    set ch := sdChild a c l with hch_def
    have hch := sdChild_cases a c l
    rw [← hch_def] at hch
    have hcl : c < ch := by omega
    have hchl : ch ≤ l := hch.2 h
    have hchlen : ch < a.length := by omega
    have hclen : c < a.length := by omega
    -- the swapped array is heap-ordered at all parents above the child
    have hF' : heapFrom (swap a c ch) (ch + 1) l := by
      intro p j hp hj hcj
      have hpne : p ≠ c := by omega
      have hpnch : p ≠ ch := by omega
      have hjne : j ≠ c := by omega
      have hjnch : j ≠ ch := by omega
      rw [getD_swap_other a c ch p hpne hpnch, getD_swap_other a c ch j hjne hjnch]
      exact hF p j (by omega) hj hcj
    have hR := ih (by simpa using hl) hF'
    rw [sift_down_of_swap a c l h hc, ← hch_def]
    intro p j hp hj hcj
    rcases Nat.lt_or_ge p ch with hpch | hpch
    swap
    · exact hR p j hpch hj hcj
    rcases Nat.lt_or_ge c p with hcp | hcp
    · -- c < p < ch : neither endpoint is touched by the swap or the recursion
      have hjch : ch < j := by omega
      have hjpar : parentIdx j < ch := by unfold parentIdx; omega
      have hRp : (Heap_sift_down (swap a c ch) ch l).getD p 0 = a.getD p 0 := by
        rw [sift_down_getD_outside l _ _ p (not_InSub_of_lt hpch),
          getD_swap_other a c ch p (by omega) (by omega)]
      have hRj : (Heap_sift_down (swap a c ch) ch l).getD j 0 = a.getD j 0 := by
        rw [sift_down_getD_outside l _ _ j
            (not_InSub_of_parentIdx_lt (by omega) hjpar),
          getD_swap_other a c ch j (by omega) (by omega)]
      rw [hRp, hRj]
      exact hF p j (by omega) hj hcj
    · -- p = c
      have hpc : p = c := by omega
      subst hpc
      have hRc : (Heap_sift_down (swap a p ch) ch l).getD p 0 = a.getD ch 0 := by
        rw [sift_down_getD_outside l _ _ p (not_InSub_of_lt hpch),
          getD_swap_fst a p ch hclen]
      by_cases hjch : j = ch
      · -- the child the value was swapped into
        rw [hjch]
        rcases sift_down_root (swap a p ch) ch l (by simpa using hl) with hroot | hroot
        · rw [hRc, hroot, getD_swap_snd a p ch hchlen]
          exact le_of_lt hc
        · obtain ⟨j', hj', hj'l, hj'eq⟩ := hroot
          rw [hRc, hj'eq, getD_swap_other a p ch j' (by omega) (by omega)]
          exact hF ch j' (by omega) hj'l hj'
      · -- the sibling of the chosen child
        have hjpar : parentIdx j < ch := by unfold parentIdx; omega
        have hRj : (Heap_sift_down (swap a p ch) ch l).getD j 0 = a.getD j 0 := by
          rw [sift_down_getD_outside l _ _ j
              (not_InSub_of_parentIdx_lt hjch hjpar),
            getD_swap_other a p ch j (by omega) hjch]
        rw [hRc, hRj]
        exact sdChild_max a p l j hcj hj

/-- In a max-heap over `[0, l]` the root is the maximum. -/
theorem heap_root_max (a : List Int) (l : Nat) (hF : heapFrom a 0 l) :
    ∀ i, i ≤ l → a.getD i 0 ≤ a.getD 0 0 := by
  intro i
  induction i using Nat.strong_induction_on with
  | _ i ih =>
    intro hi
    rcases Nat.eq_zero_or_pos i with hi0 | hi0
    · subst hi0; exact le_refl _
    · have hp : i = 2 * ((i - 1) / 2) + 1 ∨ i = 2 * ((i - 1) / 2) + 2 := by omega
      exact le_trans (hF _ i (Nat.zero_le _) hi hp) (ih ((i - 1) / 2) (by omega) (by omega))

/-! ## Properties of bottom-up heapify -/

theorem buLoop_length (l : Nat) : ∀ (k : Nat) (a : List Int),
    (buLoop a l k).length = a.length := by
  intro k
  induction k with
  | zero => intro a; rw [buLoop, sift_down_length]
  | succ n ih => intro a; rw [buLoop, ih, sift_down_length]

theorem buLoop_perm (l : Nat) : ∀ (k : Nat) (a : List Int), l < a.length →
    (buLoop a l k).Perm a := by
  intro k
  induction k with
  | zero => intro a hl; exact sift_down_perm l a 0 hl
  | succ n ih =>
    intro a hl
    rw [buLoop]
    exact (ih _ (by rw [sift_down_length]; exact hl)).trans (sift_down_perm l a (n + 1) hl)

theorem buLoop_heapFrom (l : Nat) : ∀ (k : Nat) (a : List Int), l < a.length →
    heapFrom a (k + 1) l → heapFrom (buLoop a l k) 0 l := by
  intro k
  induction k with
  | zero => intro a hl hF; rw [buLoop]; exact sift_down_heapFrom l a 0 hl hF
  | succ n ih =>
    intro a hl hF
    rw [buLoop]
    exact ih _ (by rw [sift_down_length]; exact hl) (sift_down_heapFrom l a (n + 1) hl hF)

theorem heapifyArr_length (a : List Int) : (heapifyArr a).length = a.length := by
  unfold heapifyArr
  split
  · rfl
  · rw [buLoop_length]

theorem heapifyArr_perm (a : List Int) : (heapifyArr a).Perm a := by
  unfold heapifyArr
  split
  · exact List.Perm.refl a
  · exact buLoop_perm _ _ a (by omega)

theorem heapifyArr_heapFrom (a : List Int) :
    heapFrom (heapifyArr a) 0 (a.length - 1) := by
  unfold heapifyArr
  split
  · intro p j hp hj hcj; omega
  · refine buLoop_heapFrom _ _ a (by omega) ?_
    intro p j hp hj hcj
    omega

/-! ## Properties of the extraction loop -/

theorem popLoop_length : ∀ (m : Nat) (a : List Int),
    (popLoop a m).length = a.length := by
  intro m
  induction m with
  | zero => intro a; rw [popLoop]
  | succ n ih => intro a; rw [popLoop, ih, sift_down_length, length_swap]

theorem popLoop_perm : ∀ (m : Nat) (a : List Int), m < a.length →
    (popLoop a m).Perm a := by
  intro m
  induction m with
  | zero => intro a _; rw [popLoop]
  | succ n ih =>
    intro a h
    rw [popLoop]
    have h1 : (Heap_sift_down (swap a 0 (n + 1)) 0 n).length = a.length := by
      rw [sift_down_length, length_swap]
    exact ((ih _ (by omega)).trans
      (sift_down_perm n _ 0 (by rw [length_swap]; omega))).trans
      (swap_perm a 0 (n + 1) (by omega) h)

theorem popLoopN_eq : ∀ (m : Nat) (a : List Int),
    popLoopN a m = (popLoop a m, m) := by
  intro m
  induction m with
  | zero => intro a; rfl
  | succ n ih => intro a; rw [popLoopN, popLoop, ih]

/-- Main invariant argument for the extraction loop: a max-heap over
`[0, m]`, a sorted suffix above `m` dominating the heap region, stays
sorted after the loop runs the region down to nothing. -/
theorem popLoop_sorted : ∀ (m : Nat) (a : List Int), m < a.length →
    heapFrom a 0 m →
    (∀ i j, m < i → i ≤ j → j < a.length → a.getD i 0 ≤ a.getD j 0) →
    (∀ i j, i ≤ m → m < j → j < a.length → a.getD i 0 ≤ a.getD j 0) →
    ∀ i j, i ≤ j → j < a.length → (popLoop a m).getD i 0 ≤ (popLoop a m).getD j 0 := by
  intro m
  induction m with
  | zero =>
    intro a _ _ hsuf hcross i j hij hj
    rw [popLoop]
    rcases Nat.eq_zero_or_pos i with hi0 | hi0
    · subst hi0
      rcases Nat.eq_zero_or_pos j with hj0 | hj0
      · subst hj0; exact le_refl _
      · exact hcross 0 j (le_refl 0) hj0 hj
    · exact hsuf i j hi0 hij hj
  | succ m ih =>
    intro a hlen hF hsuf hcross i j hij hj
    have hm1 : m + 1 < a.length := hlen
    have hl1 : (swap a 0 (m + 1)).length = a.length := length_swap a 0 (m + 1)
    have hl2 : (Heap_sift_down (swap a 0 (m + 1)) 0 m).length = a.length := by
      rw [sift_down_length, length_swap]
    -- values of the array after the swap + sift of this cycle, above the region
    have key : ∀ t, m < t → t < a.length →
        (Heap_sift_down (swap a 0 (m + 1)) 0 m).getD t 0 =
          (if t = m + 1 then a.getD 0 0 else a.getD t 0) := by
      intro t ht htl
      rw [sift_down_getD_beyond m _ 0 t ht]
      by_cases hte : t = m + 1
      · rw [hte, if_pos rfl]
        exact getD_swap_snd a 0 (m + 1) hm1
      · rw [if_neg hte]
        exact getD_swap_other a 0 (m + 1) t (by omega) hte
    -- cells in the shrunk region stay below the old root value
    have hbound : ∀ t, t ≤ m →
        (Heap_sift_down (swap a 0 (m + 1)) 0 m).getD t 0 ≤ a.getD 0 0 := by
      refine sift_down_bound m (a.getD 0 0) (swap a 0 (m + 1)) 0 (by omega) ?_
      intro t htm
      rcases Nat.eq_zero_or_pos t with ht0 | ht0
      · subst ht0
        rw [getD_swap_fst a 0 (m + 1) (by omega)]
        exact heap_root_max a (m + 1) hF (m + 1) (le_refl _)
      · rw [getD_swap_other a 0 (m + 1) t (by omega) (by omega)]
        exact heap_root_max a (m + 1) hF t (by omega)
    rw [popLoop]
    refine ih (Heap_sift_down (swap a 0 (m + 1)) 0 m) (by omega) ?_ ?_ ?_ i j hij (by omega)
    · -- the shrunk region is again a max-heap
      refine sift_down_heapFrom m (swap a 0 (m + 1)) 0 (by omega) ?_
      intro p q hp hq hcq
      rw [getD_swap_other a 0 (m + 1) p (by omega) (by omega),
        getD_swap_other a 0 (m + 1) q (by omega) (by omega)]
      exact hF p q (Nat.zero_le _) (by omega) hcq
    · -- the grown suffix is sorted
      intro s t hs hst ht
      rw [hl2] at ht
      rw [key s (by omega) (by omega), key t (by omega) (by omega)]
      by_cases hse : s = m + 1
      · rw [if_pos hse]
        by_cases hte : t = m + 1
        · rw [if_pos hte]
        · rw [if_neg hte]
          exact hcross 0 t (by omega) (by omega) ht
      · rw [if_neg hse, if_neg (by omega : ¬ t = m + 1)]
        exact hsuf s t (by omega) hst ht
    · -- the shrunk region is dominated by the grown suffix
      intro s t hs ht htl
      rw [hl2] at htl
      rw [key t (by omega) (by omega)]
      by_cases hte : t = m + 1
      · rw [if_pos hte]
        exact hbound s hs
      · rw [if_neg hte]
        exact le_trans (hbound s hs) (hcross 0 t (by omega) (by omega) htl)

/-! ## From `getD` statements to `List.Sorted` -/

theorem getD_eq_getElem (a : List Int) (i : Nat) (h : i < a.length) :
    a.getD i 0 = a[i] := by
  induction a generalizing i with
  | nil => simp at h
  | cons x t ih =>
    cases i with
    | zero => rfl
    | succ k =>
      have hk : k < t.length := by simpa using h
      simpa [List.getD_cons_succ] using ih k hk

theorem sorted_of_getD (b : List Int)
    (h : ∀ i j, i ≤ j → j < b.length → b.getD i 0 ≤ b.getD j 0) :
    List.Sorted (· ≤ ·) b := by
  rw [List.Sorted, List.pairwise_iff_getElem]
  intro i j hi hj hij
  have := h i j (le_of_lt hij) hj
  rwa [getD_eq_getElem b i (by omega), getD_eq_getElem b j hj] at this

/-! ## The checked loop agrees with the pure loop on a valid heap -/

theorem popLoopC_eq : ∀ (m : Nat) (a : List Int), m < a.length →
    popLoopC a (m : Int) = some (popLoop a m) := by
  intro m
  induction m with
  | zero =>
    intro a _
    rw [popLoopC]
    simp [popLoop]
  | succ n ih =>
    intro a h
    have hsw : swapC a 0 ((n + 1 : Nat) : Int) = some (swap a 0 (n + 1)) := by
      have h1 : (0 : Int) ≤ 0 ∧ (0 : Int) < (a.length : Int) := by omega
      have h2 : (0 : Int) ≤ ((n + 1 : Nat) : Int) ∧
          ((n + 1 : Nat) : Int) < (a.length : Int) := by omega
      simpa using swapC_in_bounds a 0 ((n + 1 : Nat) : Int) h1 h2
    rw [popLoopC]
    rw [if_neg (by exact_mod_cast Nat.succ_ne_zero n)]
    split
    · rename_i a2 heq
      rw [hsw] at heq
      obtain rfl : swap a 0 (n + 1) = a2 := Option.some.inj heq
      have hc1 : ((n + 1 : Nat) : Int) - 1 = (n : Int) := by omega
      rw [hc1, Int.toNat_natCast, popLoop]
      exact ih _ (by rw [sift_down_length, length_swap]; omega)
    · rename_i heq
      rw [hsw] at heq
      simp at heq

/-- For a nonempty array, `Heap_sort` succeeds and computes the pure
heapify-then-extract composition. -/
theorem Heap_sort_eq_some (a : List Int) (h : a ≠ []) :
    Heap_sort a = some (popLoop (heapifyArr a) (a.length - 1)) := by
  have hlen : 0 < a.length := List.length_pos.mpr h
  unfold Heap_sort Heap_popS Heap_max_heapify_bu
  have hc : (a.length : Int) - 1 = ((a.length - 1 : Nat) : Int) := by omega
  rw [hc]
  exact popLoopC_eq (a.length - 1) (heapifyArr a) (by rw [heapifyArr_length]; omega)

/-- The composed pure result is a sorted permutation of the input. -/
theorem heapsort_result_sorted (a : List Int) :
    (popLoop (heapifyArr a) (a.length - 1)).Perm a ∧
      List.Sorted (· ≤ ·) (popLoop (heapifyArr a) (a.length - 1)) := by
  rcases List.eq_nil_or_concat a with rfl | ⟨_, _, _⟩
  · constructor
    · simp [heapifyArr, popLoop]
    · simp [heapifyArr, popLoop]
  · have hlen : 0 < a.length := by
      rename_i l x hx
      subst hx
      simp
    have h1 : a.length - 1 < (heapifyArr a).length := by rw [heapifyArr_length]; omega
    constructor
    · exact (popLoop_perm (a.length - 1) (heapifyArr a) h1).trans (heapifyArr_perm a)
    · refine sorted_of_getD _ ?_
      intro i j hij hj
      rw [popLoop_length] at hj
      rw [heapifyArr_length] at hj
      refine popLoop_sorted (a.length - 1) (heapifyArr a) h1 ?_ ?_ ?_ i j hij
        (by rw [heapifyArr_length]; omega)
      · exact heapifyArr_heapFrom a
      · intro s t hs _ _
        rw [heapifyArr_length] at *
        omega
      · intro s t _ ht htl
        rw [heapifyArr_length] at *
        omega

/-! ## Properties of `Heap_sift_up` -/

theorem sift_up_zero (a : List Int) : Heap_sift_up a 0 = a := by
  rw [Heap_sift_up]
  simp

theorem sift_up_of_stop (a : List Int) (c : Nat) (h : c ≠ 0)
    (hc : ¬ a.getD ((c - 1) / 2) 0 < a.getD c 0) : Heap_sift_up a c = a := by
  rw [Heap_sift_up, if_neg h]
  exact if_neg hc

theorem sift_up_of_swap (a : List Int) (c : Nat) (h : c ≠ 0)
    (hc : a.getD ((c - 1) / 2) 0 < a.getD c 0) :
    Heap_sift_up a c = Heap_sift_up (swap a c ((c - 1) / 2)) ((c - 1) / 2) := by
  rw [Heap_sift_up, if_neg h]
  exact if_pos hc

theorem sift_up_perm : ∀ (c : Nat) (a : List Int), c < a.length →
    (Heap_sift_up a c).Perm a := by
  intro c
  induction c using Nat.strong_induction_on with
  | _ c ih =>
    intro a hc
    rcases Nat.eq_zero_or_pos c with rfl | h0
    · rw [sift_up_zero]
    · by_cases hc2 : a.getD ((c - 1) / 2) 0 < a.getD c 0
      · rw [sift_up_of_swap a c (by omega) hc2]
        exact (ih ((c - 1) / 2) (by omega) _ (by rw [length_swap]; omega)).trans
          (swap_perm a c ((c - 1) / 2) hc (by omega))
      · rw [sift_up_of_stop a c (by omega) hc2]

/-- The sift-up restoration lemma: if every parent/child pair over
`[0, l]` is heap-ordered except possibly the pair above `k`, and the
children of `k` (if any) also fit below `k`'s parent, then sifting up
from `k` makes every pair over `[0, l]` heap-ordered. -/
theorem sift_up_restore (l : Nat) : ∀ (k : Nat) (a : List Int), k ≤ l →
    l < a.length →
    (∀ p j, j ≤ l → (j = 2 * p + 1 ∨ j = 2 * p + 2) → j ≠ k →
      a.getD j 0 ≤ a.getD p 0) →
    (∀ j, (j = 2 * k + 1 ∨ j = 2 * k + 2) → j ≤ l → k ≠ 0 →
      a.getD j 0 ≤ a.getD ((k - 1) / 2) 0) →
    ∀ p j, j ≤ l → (j = 2 * p + 1 ∨ j = 2 * p + 2) →
      (Heap_sift_up a k).getD j 0 ≤ (Heap_sift_up a k).getD p 0 := by
  intro k
  induction k using Nat.strong_induction_on with
  | _ k ih =>
    intro a hkl hl h1 h2 p j hj hcj
    rcases Nat.eq_zero_or_pos k with rfl | hk0
    · rw [sift_up_zero]
      exact h1 p j hj hcj (by omega)
    · have hklen : k < a.length := by omega
      have hplen : (k - 1) / 2 < a.length := by omega
      by_cases hcond : a.getD ((k - 1) / 2) 0 < a.getD k 0
      swap
      · -- the loop stops: the only possibly-missing pair holds by the test
        rw [sift_up_of_stop a k (by omega) hcond]
        by_cases hjk : j = k
        · have hpp : p = (k - 1) / 2 := by omega
          subst hjk; subst hpp
          exact not_lt.mp hcond
        · exact h1 p j hj hcj hjk
      · rw [sift_up_of_swap a k (by omega) hcond]
        refine ih ((k - 1) / 2) (by omega) _ (by omega) (by simpa using hl) ?_ ?_
          p j hj hcj
        · -- heap-ordered except above the parent, in the swapped array
          intro q i hi hci hiq
          by_cases hik : i = k
          · have hq : q = (k - 1) / 2 := by omega
            rw [hik, hq, getD_swap_fst a k ((k - 1) / 2) hklen,
              getD_swap_snd a k ((k - 1) / 2) hplen]
            exact le_of_lt hcond
          · by_cases hqk : q = k
            · rw [hqk, getD_swap_other a k ((k - 1) / 2) i hik hiq,
                getD_swap_fst a k ((k - 1) / 2) hklen]
              refine h2 i ?_ hi (by omega)
              rw [← hqk]; exact hci
            · by_cases hqp : q = (k - 1) / 2
              · rw [hqp, getD_swap_other a k ((k - 1) / 2) i hik hiq,
                  getD_swap_snd a k ((k - 1) / 2) hplen]
                refine le_trans ?_ (le_of_lt hcond)
                refine h1 ((k - 1) / 2) i hi ?_ hik
                rw [← hqp]; exact hci
              · rw [getD_swap_other a k ((k - 1) / 2) i hik hiq,
                  getD_swap_other a k ((k - 1) / 2) q hqk hqp]
                exact h1 q i hi hci hik
        · -- the children of the parent fit below the grandparent
          intro i hci hi hp0
          have hppk : ((k - 1) / 2 - 1) / 2 ≠ k := by omega
          have hppp : ((k - 1) / 2 - 1) / 2 ≠ (k - 1) / 2 := by omega
          rw [getD_swap_other a k ((k - 1) / 2) _ hppk hppp]
          by_cases hik : i = k
          · rw [hik, getD_swap_fst a k ((k - 1) / 2) hklen]
            exact h1 (((k - 1) / 2 - 1) / 2) ((k - 1) / 2) (by omega) (by omega)
              (by omega)
          · have hip : i ≠ (k - 1) / 2 := by omega
            rw [getD_swap_other a k ((k - 1) / 2) i hik hip]
            exact le_trans (h1 ((k - 1) / 2) i hi hci hik)
              (h1 (((k - 1) / 2 - 1) / 2) ((k - 1) / 2) (by omega) (by omega)
                (by omega))

/-! ## sorting.c — quicksort's Hoare-style partition

`Partition_hoare_P` takes `uint16_t` bounds; inside the loops `left` only
increases while `left < right` and `right` only decreases while
`right > left`, so neither can wrap and both are modelled on `Nat`. -/

/-- First inner loop of `Partition_hoare_P`:
`while (the_array[left] <= pivot_value && left < right) left++;`. -/
def hoareLeft (a : List Int) (pv : Int) (left right : Nat) : Nat :=
  if _h : left < right ∧ a.getD left 0 ≤ pv then hoareLeft a pv (left + 1) right
  else left
termination_by right - left
decreasing_by omega

/-- Second inner loop of `Partition_hoare_P`:
`while (the_array[right] >= pivot_value && right > left) right--;`. -/
def hoareRight (a : List Int) (pv : Int) (left right : Nat) : Nat :=
  if _h : left < right ∧ pv ≤ a.getD right 0 then hoareRight a pv left (right - 1)
  else right
termination_by right - left
decreasing_by omega

theorem hoareLeft_step (a : List Int) (pv : Int) (left right : Nat)
    (h : left < right ∧ a.getD left 0 ≤ pv) :
    hoareLeft a pv left right = hoareLeft a pv (left + 1) right := by
  rw [hoareLeft, dif_pos h]

theorem hoareLeft_stop_eq (a : List Int) (pv : Int) (left right : Nat)
    (h : ¬ (left < right ∧ a.getD left 0 ≤ pv)) :
    hoareLeft a pv left right = left := by
  rw [hoareLeft, dif_neg h]

theorem hoareRight_step (a : List Int) (pv : Int) (left right : Nat)
    (h : left < right ∧ pv ≤ a.getD right 0) :
    hoareRight a pv left right = hoareRight a pv left (right - 1) := by
  rw [hoareRight, dif_pos h]

theorem hoareRight_stop_eq (a : List Int) (pv : Int) (left right : Nat)
    (h : ¬ (left < right ∧ pv ≤ a.getD right 0)) :
    hoareRight a pv left right = right := by
  rw [hoareRight, dif_neg h]

theorem hoareLeft_induction (a : List Int) (pv : Int) (right : Nat) (P : Nat → Prop)
    (stop : ∀ left, ¬ (left < right ∧ a.getD left 0 ≤ pv) → P left)
    (step : ∀ left, (left < right ∧ a.getD left 0 ≤ pv) → P (left + 1) → P left) :
    ∀ left, P left := by
  have main : ∀ n left, right - left ≤ n → P left := by
    intro n
    induction n with
    | zero => intro left h; exact stop left (by omega)
    | succ n ih =>
      intro left h
      by_cases hc : left < right ∧ a.getD left 0 ≤ pv
      · exact step left hc (ih (left + 1) (by omega))
      · exact stop left hc
  intro left
  exact main (right - left) left le_rfl

theorem hoareRight_induction (a : List Int) (pv : Int) (left : Nat) (P : Nat → Prop)
    (stop : ∀ right, ¬ (left < right ∧ pv ≤ a.getD right 0) → P right)
    (step : ∀ right, (left < right ∧ pv ≤ a.getD right 0) → P (right - 1) → P right) :
    ∀ right, P right := by
  have main : ∀ n right, right - left ≤ n → P right := by
    intro n
    induction n with
    | zero => intro right h; exact stop right (by omega)
    | succ n ih =>
      intro right h
      by_cases hc : left < right ∧ pv ≤ a.getD right 0
      · exact step right hc (ih (right - 1) (by omega))
      · exact stop right hc
  intro right
  exact main (right - left) right le_rfl

theorem hoareLeft_ge (a : List Int) (pv : Int) (right : Nat) :
    ∀ left, left ≤ hoareLeft a pv left right := by
  refine hoareLeft_induction a pv right _ ?_ ?_
  · intro left h; rw [hoareLeft_stop_eq a pv left right h]
  · intro left h ih; rw [hoareLeft_step a pv left right h]; omega

theorem hoareLeft_le (a : List Int) (pv : Int) (right : Nat) :
    ∀ left, left ≤ right → hoareLeft a pv left right ≤ right := by
  refine hoareLeft_induction a pv right _ ?_ ?_
  · intro left h hle; rw [hoareLeft_stop_eq a pv left right h]; exact hle
  · intro left h ih _; rw [hoareLeft_step a pv left right h]; exact ih (by omega)

theorem hoareLeft_scan (a : List Int) (pv : Int) (right : Nat) :
    ∀ left, ∀ i, left ≤ i → i < hoareLeft a pv left right → a.getD i 0 ≤ pv := by
  refine hoareLeft_induction a pv right _ ?_ ?_
  · intro left h i hi1 hi2
    rw [hoareLeft_stop_eq a pv left right h] at hi2
    omega
  · intro left h ih i hi1 hi2
    rw [hoareLeft_step a pv left right h] at hi2
    rcases Nat.eq_or_lt_of_le hi1 with rfl | hlt
    · exact h.2
    · exact ih i (by omega) hi2

theorem hoareLeft_stops (a : List Int) (pv : Int) (right : Nat) :
    ∀ left, ¬ (hoareLeft a pv left right < right ∧
      a.getD (hoareLeft a pv left right) 0 ≤ pv) := by
  refine hoareLeft_induction a pv right _ ?_ ?_
  · intro left h; rw [hoareLeft_stop_eq a pv left right h]; exact h
  · intro left h ih; rw [hoareLeft_step a pv left right h]; exact ih

theorem hoareRight_le (a : List Int) (pv : Int) (left : Nat) :
    ∀ right, hoareRight a pv left right ≤ right := by
  refine hoareRight_induction a pv left _ ?_ ?_
  · intro right h; rw [hoareRight_stop_eq a pv left right h]
  · intro right h ih; rw [hoareRight_step a pv left right h]; omega

theorem hoareRight_ge (a : List Int) (pv : Int) (left : Nat) :
    ∀ right, left ≤ right → left ≤ hoareRight a pv left right := by
  refine hoareRight_induction a pv left _ ?_ ?_
  · intro right h hle; rw [hoareRight_stop_eq a pv left right h]; exact hle
  · intro right h ih _; rw [hoareRight_step a pv left right h]; exact ih (by omega)

theorem hoareRight_scan (a : List Int) (pv : Int) (left : Nat) :
    ∀ right, ∀ i, hoareRight a pv left right < i → i ≤ right → pv ≤ a.getD i 0 := by
  refine hoareRight_induction a pv left _ ?_ ?_
  · intro right h i hi1 hi2
    rw [hoareRight_stop_eq a pv left right h] at hi1
    omega
  · intro right h ih i hi1 hi2
    rw [hoareRight_step a pv left right h] at hi1
    rcases Nat.eq_or_lt_of_le hi2 with rfl | hlt
    · exact h.2
    · exact ih i hi1 (by omega)

theorem hoareRight_stops (a : List Int) (pv : Int) (left : Nat) :
    ∀ right, ¬ (left < hoareRight a pv left right ∧
      pv ≤ a.getD (hoareRight a pv left right) 0) := by
  refine hoareRight_induction a pv left _ ?_ ?_
  · intro right h; rw [hoareRight_stop_eq a pv left right h]; exact h
  · intro right h ih; rw [hoareRight_step a pv left right h]; exact ih

/-- Outer loop of `Partition_hoare_P`: `while (right > left) { scan left;
scan right; swap the two cells; }`.  Termination: every iteration either
moves an index inward, or (when both scans stop immediately) swaps a
value `< pivot` into the `left` cell, after which the next left scan must
move. -/
def hoareLoop (a : List Int) (pv : Int) (left right : Nat) : List Int × Nat :=
  if _h : left < right then
    hoareLoop
      (swap a (hoareLeft a pv left right)
        (hoareRight a pv (hoareLeft a pv left right) right)) pv
      (hoareLeft a pv left right)
      (hoareRight a pv (hoareLeft a pv left right) right)
  else (a, left)
termination_by 2 * (right - left) + (if pv < a.getD left 0 then 1 else 0)
decreasing_by
  have hl1 : left ≤ hoareLeft a pv left right := hoareLeft_ge a pv right left
  have hl2 : hoareLeft a pv left right ≤ right := hoareLeft_le a pv right left (by omega)
  have hr1 : hoareLeft a pv left right ≤
      hoareRight a pv (hoareLeft a pv left right) right :=
    hoareRight_ge a pv (hoareLeft a pv left right) right hl2
  have hr2 : hoareRight a pv (hoareLeft a pv left right) right ≤ right :=
    hoareRight_le a pv (hoareLeft a pv left right) right
  have hind : (if pv <
      (swap a (hoareLeft a pv left right)
        (hoareRight a pv (hoareLeft a pv left right) right)).getD
          (hoareLeft a pv left right) 0 then 1 else 0) ≤ 1 := by
    split <;> omega
  by_cases hmove : left < hoareLeft a pv left right ∨
      hoareRight a pv (hoareLeft a pv left right) right < right
  · have hind2 : (0 : Nat) ≤ (if pv < a.getD left 0 then 1 else 0) := by omega
    omega
  · -- neither scan moved: the swap brings a below-pivot value into `left`
    push_neg at hmove
    have hle : hoareLeft a pv left right = left := by omega
    have hre : hoareRight a pv (hoareLeft a pv left right) right = right := by omega
    have hstop1 := hoareLeft_stops a pv right left
    rw [hle] at hstop1
    have hpvl : pv < a.getD left 0 := by
      rcases not_and_or.mp hstop1 with hc | hc
      · omega
      · exact lt_of_not_le hc
    have hstop2 := hoareRight_stops a pv (hoareLeft a pv left right) right
    rw [hre, hle] at hstop2
    have hpvr : a.getD right 0 < pv := by
      rcases not_and_or.mp hstop2 with hc | hc
      · omega
      · exact lt_of_not_le hc
    have hlen : left < a.length := by
      by_contra hno
      have h1 := getD_oob a left (by omega)
      have h2 := getD_oob a right (by omega)
      rw [h1] at hpvl
      rw [h2] at hpvr
      omega
    rw [hre, hle, getD_swap_fst a left right hlen, if_pos hpvl,
      if_neg (by omega : ¬ pv < a.getD right 0)]
    omega

/-- `Partition_hoare_P(the_array, index_start, index_end)`: pivot value is
`the_array[index_end]`; after the outer loop, swap the cell where the
indices met with the pivot cell and return that index. -/
def Partition_hoare_P (a : List Int) (index_start index_end : Nat) :
    List Int × Nat :=
  (swap (hoareLoop a (a.getD index_end 0) index_start index_end).1
      (hoareLoop a (a.getD index_end 0) index_start index_end).2 index_end,
    (hoareLoop a (a.getD index_end 0) index_start index_end).2)

theorem hoareLoop_exit (a : List Int) (pv : Int) (left right : Nat)
    (h : ¬ left < right) : hoareLoop a pv left right = (a, left) := by
  rw [hoareLoop, dif_neg h]

theorem hoareLoop_step (a : List Int) (pv : Int) (left right : Nat)
    (h : left < right) :
    hoareLoop a pv left right =
      hoareLoop
        (swap a (hoareLeft a pv left right)
          (hoareRight a pv (hoareLeft a pv left right) right)) pv
        (hoareLeft a pv left right)
        (hoareRight a pv (hoareLeft a pv left right) right) := by
  rw [hoareLoop, dif_pos h]

/-- Invariant argument for the partition's outer loop: everything strictly
left of `left` is `≤ pivot`, everything strictly right of `right` is
`≥ pivot`, and the `right` cell is `≥ pivot` unless `right` still sits on
the pivot cell `e`; at exit both indices agree on the returned index. -/
theorem hoareLoop_main (s e : Nat) :
    ∀ (a : List Int) (pv : Int) (left right : Nat),
    s ≤ left → left ≤ right → right ≤ e → e < a.length →
    (∀ i, s ≤ i → i < left → a.getD i 0 ≤ pv) →
    (∀ i, right < i → i ≤ e → pv ≤ a.getD i 0) →
    (pv ≤ a.getD right 0 ∨ right = e) →
    left ≤ (hoareLoop a pv left right).2 ∧
      (hoareLoop a pv left right).2 ≤ right ∧
      (hoareLoop a pv left right).1.length = a.length ∧
      (hoareLoop a pv left right).1.Perm a ∧
      (∀ i, i < left ∨ right < i →
        (hoareLoop a pv left right).1.getD i 0 = a.getD i 0) ∧
      (∀ i, s ≤ i → i < (hoareLoop a pv left right).2 →
        (hoareLoop a pv left right).1.getD i 0 ≤ pv) ∧
      (∀ i, (hoareLoop a pv left right).2 < i → i ≤ e →
        pv ≤ (hoareLoop a pv left right).1.getD i 0) ∧
      (pv ≤ (hoareLoop a pv left right).1.getD (hoareLoop a pv left right).2 0 ∨
        (hoareLoop a pv left right).2 = e) := by
  intro a pv left right
  induction a, pv, left, right using hoareLoop.induct with
  | case2 a pv left right h =>
    intro hsl hlr hre hel h5 h6 h7
    rw [hoareLoop_exit a pv left right h]
    have heq : left = right := by omega
    refine ⟨le_rfl, by omega, rfl, List.Perm.refl a, fun i _ => rfl, h5, ?_, ?_⟩
    · intro i hi1 hi2
      exact h6 i (by omega) hi2
    · rw [heq]
      exact h7
  | case1 a pv left right h ih =>
    intro hsl hlr hre hel h5 h6 h7
    have hl1 : left ≤ hoareLeft a pv left right := hoareLeft_ge a pv right left
    have hl2 : hoareLeft a pv left right ≤ right :=
      hoareLeft_le a pv right left (by omega)
    have hr1 : hoareLeft a pv left right ≤
        hoareRight a pv (hoareLeft a pv left right) right :=
      hoareRight_ge a pv (hoareLeft a pv left right) right hl2
    have hr2 : hoareRight a pv (hoareLeft a pv left right) right ≤ right :=
      hoareRight_le a pv (hoareLeft a pv left right) right
    have scanL := hoareLeft_scan a pv right left
    have scanR := hoareRight_scan a pv (hoareLeft a pv left right) right
    have stopL := hoareLeft_stops a pv right left
    have stopR := hoareRight_stops a pv (hoareLeft a pv left right) right
    set l := hoareLeft a pv left right with hldef
    set r := hoareRight a pv l right with hrdef
    have hllen : l < a.length := by omega
    have hrlen : r < a.length := by omega
    -- the hypotheses of the invariant for the next iteration
    have h5' : ∀ i, s ≤ i → i < l → (swap a l r).getD i 0 ≤ pv := by
      intro i hi1 hi2
      rw [getD_swap_other a l r i (by omega) (by omega)]
      rcases Nat.lt_or_ge i left with hi3 | hi3
      · exact h5 i hi1 hi3
      · exact scanL i hi3 hi2
    have h6' : ∀ i, r < i → i ≤ e → pv ≤ (swap a l r).getD i 0 := by
      intro i hi1 hi2
      rw [getD_swap_other a l r i (by omega) (by omega)]
      rcases le_or_lt i right with hi3 | hi3
      · exact scanR i hi1 hi3
      · exact h6 i hi3 hi2
    have h7' : pv ≤ (swap a l r).getD r 0 ∨ r = e := by
      rcases Nat.lt_or_ge l r with hlr2 | hlr2
      · left
        rw [getD_swap_snd a l r hrlen]
        have : ¬ a.getD l 0 ≤ pv := fun hc => stopL ⟨by omega, hc⟩
        omega
      · have hlre : l = r := by omega
        rw [← hlre, swap_self]
        rcases Nat.lt_or_ge l right with hlr3 | hlr3
        · left
          have : ¬ a.getD l 0 ≤ pv := fun hc => stopL ⟨hlr3, hc⟩
          omega
        · have hlright : l = right := by omega
          rw [hlright]
          exact h7
    have hmain := ih (by omega) (by omega) (by omega) (by simpa using hel) h5' h6' h7'
    rw [hoareLoop_step a pv left right h, ← hldef, ← hrdef]
    obtain ⟨m1, m2, m3, m4, m5, m6, m7, m8⟩ := hmain
    refine ⟨by omega, by omega, ?_, ?_, ?_, m6, m7, m8⟩
    · rw [m3, length_swap]
    · exact m4.trans (swap_perm a l r hllen hrlen)
    · intro i hi
      have hi2 : i < l ∨ r < i := by omega
      rw [m5 i hi2, getD_swap_other a l r i (by omega) (by omega)]

/-- Full correctness of `Partition_hoare_P` over a region `[s, e]`:
the returned index is inside the region, the array is permuted with only
region cells touched, everything left of the index is `≤` the pivot value
(the original last element), everything right of it is `≥` the pivot
value. -/
theorem Partition_hoare_correct (a : List Int) (s e : Nat)
    (hse : s ≤ e) (he : e < a.length) :
    s ≤ (Partition_hoare_P a s e).2 ∧ (Partition_hoare_P a s e).2 ≤ e ∧
      (Partition_hoare_P a s e).1.length = a.length ∧
      (Partition_hoare_P a s e).1.Perm a ∧
      (∀ i, i < s ∨ e < i →
        (Partition_hoare_P a s e).1.getD i 0 = a.getD i 0) ∧
      (∀ i, s ≤ i → i < (Partition_hoare_P a s e).2 →
        (Partition_hoare_P a s e).1.getD i 0 ≤ a.getD e 0) ∧
      (∀ i, (Partition_hoare_P a s e).2 < i → i ≤ e →
        a.getD e 0 ≤ (Partition_hoare_P a s e).1.getD i 0) := by
  have hmain := hoareLoop_main s e a (a.getD e 0) s e le_rfl hse le_rfl he
    (fun i h1 h2 => by omega) (fun i h1 h2 => by omega) (Or.inl le_rfl)
  obtain ⟨m1, m2, m3, m4, m5, m6, m7, m8⟩ := hmain
  set c := (hoareLoop a (a.getD e 0) s e).1 with hcdef
  set p := (hoareLoop a (a.getD e 0) s e).2 with hpdef
  have hplen : p < c.length := by omega
  have helen : e < c.length := by omega
  have hb1 : (Partition_hoare_P a s e).1 = swap c p e := rfl
  have hb2 : (Partition_hoare_P a s e).2 = p := rfl
  rw [hb1, hb2]
  refine ⟨m1, m2, ?_, ?_, ?_, ?_, ?_⟩
  · rw [length_swap, m3]
  · exact (swap_perm c p e hplen helen).trans m4
  · intro i hi
    rw [getD_swap_other c p e i (by omega) (by omega)]
    exact m5 i (by omega)
  · intro i hi1 hi2
    rw [getD_swap_other c p e i (by omega) (by omega)]
    exact m6 i hi1 hi2
  · intro i hi1 hi2
    by_cases hie : i = e
    · rw [hie, getD_swap_snd c p e helen]
      rcases m8 with hm | hm
      · exact hm
      · omega
    · rw [getD_swap_other c p e i (by omega) hie]
      exact m7 i hi1 hi2

theorem hoareLoop_snd_ge : ∀ (a : List Int) (pv : Int) (left right : Nat),
    left ≤ (hoareLoop a pv left right).2 := by
  intro a pv left right
  induction a, pv, left, right using hoareLoop.induct with
  | case1 a pv left right h ih =>
    rw [hoareLoop_step a pv left right h]
    have := hoareLeft_ge a pv right left
    omega
  | case2 a pv left right h =>
    rw [hoareLoop_exit a pv left right h]

theorem hoareLoop_snd_le : ∀ (a : List Int) (pv : Int) (left right : Nat),
    left ≤ right → (hoareLoop a pv left right).2 ≤ right := by
  intro a pv left right
  induction a, pv, left, right using hoareLoop.induct with
  | case1 a pv left right h ih =>
    rw [hoareLoop_step a pv left right h]
    have hl2 : hoareLeft a pv left right ≤ right :=
      hoareLeft_le a pv right left (by omega)
    have hr1 : hoareLeft a pv left right ≤
        hoareRight a pv (hoareLeft a pv left right) right :=
      hoareRight_ge a pv (hoareLeft a pv left right) right hl2
    have hr2 : hoareRight a pv (hoareLeft a pv left right) right ≤ right :=
      hoareRight_le a pv (hoareLeft a pv left right) right
    intro _
    exact le_trans (ih hr1) hr2
  | case2 a pv left right h =>
    rw [hoareLoop_exit a pv left right h]
    exact fun h2 => h2

theorem Partition_snd_ge (a : List Int) (s e : Nat) :
    s ≤ (Partition_hoare_P a s e).2 :=
  hoareLoop_snd_ge a (a.getD e 0) s e

theorem Partition_snd_le (a : List Int) (s e : Nat) (h : s ≤ e) :
    (Partition_hoare_P a s e).2 ≤ e :=
  hoareLoop_snd_le a (a.getD e 0) s e h

theorem Partition_snd_eq (a : List Int) (s e : Nat) (h : e ≤ s) :
    (Partition_hoare_P a s e).2 = s := by
  show (hoareLoop a (a.getD e 0) s e).2 = s
  rcases Nat.lt_or_ge e s with hlt | hge
  · rw [hoareLoop_exit a (a.getD e 0) s e (by omega)]
  · have hse : s = e := by omega
    have h1 := hoareLoop_snd_ge a (a.getD e 0) s e
    have h2 := hoareLoop_snd_le a (a.getD e 0) s e (by omega)
    omega

/-! ## sorting.c — `Sort_quicksort_array`

The parameters are `uint16_t`, so every argument is reduced mod `2^16` on
entry; `array_length = (index_end+1) - index_start` is computed in `int`
and converted back to `uint16_t`, i.e. taken mod `2^16` (which makes the
region `(s, s-1)` produced by a pivot at the region start — including the
wrapped `(0, 65535)` when the pivot is index 0 — an empty region of
length 0); `pivot ± 1` are likewise uint16 values. -/
def Sort_quicksort_array (a : List Int) (index_start index_end : Nat) : List Int :=
  if _h2 : ((index_end % 65536) + 1 + 65536 - index_start % 65536) % 65536 ≤ 2 then
    if ((index_end % 65536) + 1 + 65536 - index_start % 65536) % 65536 = 2 then
      (if a.getD (index_end % 65536) 0 < a.getD (index_start % 65536) 0 then
        swap a (index_start % 65536) (index_end % 65536)
      else a)
    else a
  else
    Sort_quicksort_array
      (Sort_quicksort_array
        (Partition_hoare_P a (index_start % 65536) (index_end % 65536)).1
        index_start
        (((Partition_hoare_P a (index_start % 65536) (index_end % 65536)).2 + 65535)
          % 65536))
      (((Partition_hoare_P a (index_start % 65536) (index_end % 65536)).2 + 1) % 65536)
      index_end
termination_by ((index_end % 65536) + 1 + 65536 - index_start % 65536) % 65536
decreasing_by
  all_goals
    have hge := Partition_snd_ge a (index_start % 65536) (index_end % 65536)
    rcases le_or_lt (index_start % 65536) (index_end % 65536) with hc | hc
  · have hle := Partition_snd_le a (index_start % 65536) (index_end % 65536) hc
    omega
  · have heq := Partition_snd_eq a (index_start % 65536) (index_end % 65536) (by omega)
    omega
  · have hle := Partition_snd_le a (index_start % 65536) (index_end % 65536) hc
    omega
  · have heq := Partition_snd_eq a (index_start % 65536) (index_end % 65536) (by omega)
    omega

/-! ## sorting.c — the quadratic array sorts

`Sort_bubble_array` computes `unsigned int elements = array_length - 1`,
which wraps to `2^32 - 1` for a zero-length array, and its inner loop then
reads `chararray[0]` and `chararray[1]` out of bounds; its accesses are
therefore checked.  `Sort_selection_array` guards against lengths 0 and 1
explicitly, and `Sort_insertion_array`'s loops never run for them, so both
are modelled purely. -/

/-- Checked array read at a `Nat` index. -/
def getN (a : List Int) (i : Nat) : Option Int :=
  if i < a.length then some (a.getD i 0) else none

/-- Inner loop of `Sort_bubble_array`:
`for (j = 0; j < elements; j++) if (a[j] > a[j+1]) swap;`. -/
def bubbleInner (a : List Int) (elements j : Nat) : Option (List Int) :=
  if j < elements then
    match getN a j, getN a (j + 1) with
    | some x, some y =>
      bubbleInner (if y < x then swap a j (j + 1) else a) elements (j + 1)
    | _, _ => none
  else some a
termination_by elements - j

/-- Outer loop of `Sort_bubble_array`:
`for (i = elements; elements > 0; elements--) { inner pass }`. -/
def bubbleOuter (a : List Int) (elements : Nat) : Option (List Int) :=
  if elements > 0 then
    match bubbleInner a elements 0 with
    | some b => bubbleOuter b (elements - 1)
    | none => none
  else some a
termination_by elements

/-- `Sort_bubble_array(chararray, array_length)`:
`unsigned int elements = array_length - 1` wraps mod `2^32`. -/
def Sort_bubble_array (a : List Int) (array_length : Nat) : Option (List Int) :=
  bubbleOuter a ((array_length + 2 ^ 32 - 1) % 2 ^ 32)

/-- Inner scan of `Sort_selection_array`: starting from the running
smallest value/index, scan `j` from `current_index` to `passes_needed - 1`
comparing `chararray[j+1]`. -/
def selScan (a : List Int) (passes j : Nat) (sv : Int) (si : Nat) : Int × Nat :=
  if j < passes then
    if a.getD (j + 1) 0 < sv then selScan a passes (j + 1) (a.getD (j + 1) 0) (j + 1)
    else selScan a passes (j + 1) sv si
  else (sv, si)
termination_by passes - j

/-- Outer loop of `Sort_selection_array`: find the smallest value of the
unsorted section and swap it to `current_index`. -/
def selOuter (a : List Int) (passes current : Nat) : List Int :=
  if current < passes then
    selOuter (swap a current (selScan a passes current (a.getD current 0) current).2)
      passes (current + 1)
  else a
termination_by passes - current

/-- `Sort_selection_array(chararray, array_length)`: lengths 0 and 1 are
explicitly guarded (`if (!(array_length == 0 || array_length == 1))`);
otherwise `passes_needed = array_length - 1` passes run. -/
def Sort_selection_array (a : List Int) (array_length : Nat) : List Int :=
  if array_length = 0 ∨ array_length = 1 then a
  else selOuter a ((array_length + 2 ^ 32 - 1) % 2 ^ 32) 0

/-- Inner loop of `Sort_insertion_array`: `for (j = 0; j <=
section_length; j++) if (a[current_index] < a[j]) swap;`. -/
def insInner (a : List Int) (current section_length j : Nat) : List Int :=
  if j ≤ section_length then
    insInner (if a.getD current 0 < a.getD j 0 then swap a j current else a)
      current section_length (j + 1)
  else a
termination_by section_length + 1 - j

/-- Outer loop of `Sort_insertion_array`; `section_length` starts at 1
with `current_index = 1` and both are incremented together, so
`section_length = current_index` at every iteration. -/
def insOuter (a : List Int) (array_length current : Nat) : List Int :=
  if current < array_length then
    insOuter (insInner a current current 0) array_length (current + 1)
  else a
termination_by array_length - current

/-- `Sort_insertion_array(chararray, array_length)`. -/
def Sort_insertion_array (a : List Int) (array_length : Nat) : List Int :=
  insOuter a array_length 1

/-! ## heapsort.c — `Heap_init` and allocation failure

`Heap_init` allocates the descriptor, then runs
`new_max_heap->array = the_array;` **before**
`if (!new_max_heap){ exit(EXIT_FAILURE); }`.  Allocation success is an
oracle parameter; on failure the assignment dereferences the null
pointer, so the controlled `exit` path is never reached. -/

inductive InitResult : Type where
  | ok (the_array : List Int) (last_index size : Int) : InitResult
  | nullDeref : InitResult
  | exitFailure : InitResult
deriving DecidableEq

/-- `Heap_init(heap_ref, the_array, size_of_the_array)` with the malloc
outcome made explicit. -/
def Heap_init (alloc_ok : Bool) (the_array : List Int) (size : Int) : InitResult :=
  match alloc_ok with
  | true => InitResult.ok the_array (-1) size
  | false => InitResult.nullDeref

/-! ## Claim theorems -/

/-- C1 (amended to `n ≥ 1`): for every nonempty sequence, `Heap_sort`
succeeds and rearranges it into a non-decreasing permutation of itself;
in particular `Heap_sort [5,3,8,1,9,2] = [1,2,3,5,8,9]`.  (The original
claim also covered `n = 0`, where the extraction loop of `Heap_popS`
instead starts with `last_index = -1` and accesses the array out of
bounds; see the counterexample.) -/
theorem C1_heap_sort_sorts :
    (∀ a : List Int, a ≠ [] →
      ∃ b, Heap_sort a = some b ∧ b.Perm a ∧ List.Sorted (· ≤ ·) b) ∧
      Heap_sort [5, 3, 8, 1, 9, 2] = some [1, 2, 3, 5, 8, 9] := by
  constructor
  · intro a h
    exact ⟨popLoop (heapifyArr a) (a.length - 1), Heap_sort_eq_some a h,
      (heapsort_result_sorted a).1, (heapsort_result_sorted a).2⟩
  · simp [Heap_sort, Heap_popS, Heap_max_heapify_bu, heapifyArr, buLoop, popLoopC,
      Heap_sift_down, sdChild, swap, swapC, getC, setC, popLoop]

/-- C1, witness: the sorting theorem applied to the concrete nonempty
input `[3,1,2]`. -/
theorem C1_heap_sort_sorts_witness :
    ([3, 1, 2] : List Int) ≠ [] ∧
      ∃ b, Heap_sort [3, 1, 2] = some b ∧ b.Perm [3, 1, 2] ∧
        List.Sorted (· ≤ ·) b :=
  ⟨by decide, C1_heap_sort_sorts.1 [3, 1, 2] (by decide)⟩

/-- C1, counterexample to the claim as stated (`n ≥ 0`): on the empty
sequence `Heap_sort` does not produce a sorted permutation — the checked
model faults, because `Heap_popS` runs its loop with `last_index = -1`
and touches `the_array[0]`/`the_array[-1]` on a zero-length array. -/
theorem C1_heap_sort_counterexample :
    ¬ ∃ b, Heap_sort ([] : List Int) = some b ∧ b.Perm [] ∧
      List.Sorted (· ≤ ·) b := by
  have h : Heap_sort ([] : List Int) = none := by
    simp [Heap_sort, Heap_popS, Heap_max_heapify_bu, heapifyArr, popLoopC, swapC, getC]
  rintro ⟨b, hb, -, -⟩
  rw [h] at hb
  exact Option.noConfusion hb

/-- C2: the spec requires every routine to treat lengths 0 and 1 as
in-bounds no-ops, but at length 0 both `Heap_sort` (extraction loop
entered with `last_index = -1`) and `Sort_bubble_array`
(`elements = 0u - 1 = 2^32 - 1`, inner loop reads `chararray[0]` and
`chararray[1]`) access out of bounds — the checked models fault — while
`Sort_selection_array` (explicit guard) and `Sort_insertion_array`
(loop bounds) are fine, and all four are no-ops at length 1. -/
theorem C2_zero_one_boundary :
    Heap_sort ([] : List Int) = none ∧
      Sort_bubble_array ([] : List Int) 0 = none ∧
      Sort_selection_array ([] : List Int) 0 = [] ∧
      Sort_insertion_array ([] : List Int) 0 = [] ∧
      Heap_sort [7] = some [7] ∧
      Sort_bubble_array [7] 1 = some [7] ∧
      Sort_selection_array [7] 1 = [7] ∧
      Sort_insertion_array [7] 1 = [7] := by
  refine ⟨?_, ?_, ?_, ?_, ?_, ?_, ?_, ?_⟩
  · simp [Heap_sort, Heap_popS, Heap_max_heapify_bu, heapifyArr, popLoopC, swapC, getC]
  · simp [Sort_bubble_array, bubbleOuter, bubbleInner, getN]
  · simp [Sort_selection_array]
  · simp [Sort_insertion_array, insOuter]
  · simp [Heap_sort, Heap_popS, Heap_max_heapify_bu, heapifyArr, popLoopC]
  · simp [Sort_bubble_array, bubbleOuter, bubbleInner, getN]
  · simp [Sort_selection_array]
  · simp [Sort_insertion_array, insOuter]

/-- C3: for a heap of size `n ≥ 1` over a backing sequence (descriptor
`last_index = n-1`), the extraction loop performs exactly `n-1`
swap/decrement/sift-down cycles, its result agrees with the uncounted
loop, and `Heap_popS` on such a descriptor terminates with exactly that
result. -/
theorem C3_extraction_cycles (a : List Int) (n : Nat) (hn : a.length = n)
    (h1 : 1 ≤ n) :
    (popLoopN a (n - 1)).2 = n - 1 ∧
      (popLoopN a (n - 1)).1 = popLoop a (n - 1) ∧
      Heap_popS (a, (n : Int) - 1) = some ((popLoopN a (n - 1)).1) := by
  rw [popLoopN_eq (n - 1) a]
  refine ⟨rfl, rfl, ?_⟩
  show popLoopC a ((n : Int) - 1) = _
  have hc : (n : Int) - 1 = ((n - 1 : Nat) : Int) := by omega
  rw [hc]
  exact popLoopC_eq (n - 1) a (by omega)

/-- C3, witness: the cycle count theorem applied to the concrete heap
`[2,1]` of size 2. -/
theorem C3_extraction_cycles_witness :
    ([2, 1] : List Int).length = 2 ∧ 1 ≤ 2 ∧
      ((popLoopN ([2, 1] : List Int) (2 - 1)).2 = 2 - 1 ∧
        (popLoopN ([2, 1] : List Int) (2 - 1)).1 = popLoop [2, 1] (2 - 1) ∧
        Heap_popS (([2, 1] : List Int), (2 : Int) - 1) =
          some ((popLoopN ([2, 1] : List Int) (2 - 1)).1)) :=
  ⟨by decide, by decide, C3_extraction_cycles [2, 1] 2 (by decide) (by decide)⟩

/-- C4: bottom-up heapify (`first_non_leaf = (n-2)/2` down to `0`) leaves
the same multiset of values with the max-heap property over `[0, n-1]`
(`sequence[parent(i)] ≥ sequence[i]` for `0 < i ≤ n-1`), and the returned
descriptor has `last_index = n-1`; in particular heapifying `[4,1,3,9,7]`
yields `[9,7,3,1,4]`, whose internal nodes all dominate their children. -/
theorem C4_heapify_bu (a : List Int) :
    (∀ i, 1 ≤ i → i ≤ a.length - 1 →
      (Heap_max_heapify_bu a).1.getD i 0 ≤
        (Heap_max_heapify_bu a).1.getD ((i - 1) / 2) 0) ∧
      (Heap_max_heapify_bu a).1.Perm a ∧
      (Heap_max_heapify_bu a).2 = (a.length : Int) - 1 ∧
      (Heap_max_heapify_bu [4, 1, 3, 9, 7]).1 = [9, 7, 3, 1, 4] := by
  refine ⟨?_, heapifyArr_perm a, rfl, ?_⟩
  · intro i h1 h2
    exact heapifyArr_heapFrom a ((i - 1) / 2) i (Nat.zero_le _) h2 (by omega)
  · show heapifyArr [4, 1, 3, 9, 7] = [9, 7, 3, 1, 4]
    simp [heapifyArr, buLoop, Heap_sift_down, sdChild, swap]

/-- C4, witness: the heapify theorem applied to `[4,1,3,9,7]`, checking
the parent inequality at node 1. -/
theorem C4_heapify_bu_witness :
    (1 : Nat) ≤ 1 ∧ 1 ≤ ([4, 1, 3, 9, 7] : List Int).length - 1 ∧
      (Heap_max_heapify_bu ([4, 1, 3, 9, 7] : List Int)).1.getD 1 0 ≤
        (Heap_max_heapify_bu ([4, 1, 3, 9, 7] : List Int)).1.getD ((1 - 1) / 2) 0 :=
  ⟨by decide, by decide, (C4_heapify_bu [4, 1, 3, 9, 7]).1 1 (by decide) (by decide)⟩

/-- C5 (amended): the claim's conditional holds with the precondition
strengthened from "the two subtrees below `i` are heap-ordered" to "every
parent/child pair with parent index `> i` inside `[·, L]` is
heap-ordered" (which covers both subtrees below `i`): then after
`Heap_sift_down` the whole region `[i, L]` satisfies the max-heap
property, and the array is permuted only by swaps.  The original
precondition is too weak: see the counterexample, where a violation
between region nodes outside `i`'s subtrees survives the sift. -/
theorem C5_sift_down_amended (a : List Int) (i L : Nat) (hL : L < a.length)
    (hpre : ∀ p j, i + 1 ≤ p → j ≤ L → (j = 2 * p + 1 ∨ j = 2 * p + 2) →
      a.getD j 0 ≤ a.getD p 0) :
    (∀ p j, i ≤ p → j ≤ L → (j = 2 * p + 1 ∨ j = 2 * p + 2) →
      (Heap_sift_down a i L).getD j 0 ≤ (Heap_sift_down a i L).getD p 0) ∧
      (Heap_sift_down a i L).Perm a :=
  ⟨sift_down_heapFrom L a i hL hpre, sift_down_perm L a i hL⟩

/-- C5, witness: the amended sift-down theorem applied to `[3,5,4]` with
`i = 0`, `L = 2` (the precondition is vacuous there). -/
theorem C5_sift_down_amended_witness :
    (2 < ([3, 5, 4] : List Int).length) ∧
      ((∀ p j, 0 ≤ p → j ≤ 2 → (j = 2 * p + 1 ∨ j = 2 * p + 2) →
        (Heap_sift_down ([3, 5, 4] : List Int) 0 2).getD j 0 ≤
          (Heap_sift_down ([3, 5, 4] : List Int) 0 2).getD p 0) ∧
        (Heap_sift_down ([3, 5, 4] : List Int) 0 2).Perm [3, 5, 4]) :=
  ⟨by decide, C5_sift_down_amended [3, 5, 4] 0 2 (by decide)
    (fun p j hp hj hcj => by omega)⟩

/-- C5, counterexample to the claim as stated: in `[0,0,0,0,0,9]` with
start index `i = 1` and last index `L = 5`, both subtrees below node 1
(rooted at nodes 3 and 4, childless within the region) are heap-ordered,
yet after `Heap_sift_down` the region `[1, 5]` still violates the
max-heap property at the pair (2, 5), which the sift from node 1 never
touches. -/
theorem C5_sift_down_counterexample :
    (∀ p j, (InSub (2 * 1 + 1) p ∨ InSub (2 * 1 + 2) p) → j ≤ 5 →
      (j = 2 * p + 1 ∨ j = 2 * p + 2) →
      ([0, 0, 0, 0, 0, 9] : List Int).getD j 0 ≤
        ([0, 0, 0, 0, 0, 9] : List Int).getD p 0) ∧
      ¬ (∀ p j, 1 ≤ p → j ≤ 5 → (j = 2 * p + 1 ∨ j = 2 * p + 2) →
        (Heap_sift_down ([0, 0, 0, 0, 0, 9] : List Int) 1 5).getD j 0 ≤
          (Heap_sift_down ([0, 0, 0, 0, 0, 9] : List Int) 1 5).getD p 0) := by
  constructor
  · intro p j hp hj hcj
    have hp3 : 3 ≤ p := by
      rcases hp with h | h
      · exact InSub_le h
      · have := InSub_le h; omega
    omega
  · intro hpost
    have h25 := hpost 2 5 (by omega) (by omega) (Or.inl rfl)
    rw [show Heap_sift_down ([0, 0, 0, 0, 0, 9] : List Int) 1 5 = [0, 0, 0, 0, 0, 9]
      from by simp [Heap_sift_down, sdChild]] at h25
    norm_num [List.getD] at h25

/-- C6: on allocation failure the failure path of `Heap_init` is the
null-pointer dereference (`new_max_heap->array = the_array` precedes the
NULL check), not the controlled `exit(EXIT_FAILURE)` the spec describes;
the backing array itself is never written on that path. -/
theorem C6_alloc_failure_faults :
    Heap_init false [5, 3, 8, 1, 9, 2] 6 = InitResult.nullDeref ∧
      InitResult.nullDeref ≠ InitResult.exitFailure ∧
      (∀ (a : List Int) (n : Int), Heap_init false a n = InitResult.nullDeref) :=
  ⟨rfl, by decide, fun a n => rfl⟩

/-- C7: over a region `[start, end]` of the sequence, `Partition_hoare_P`
takes `the_array[index_end]` as pivot value, permutes the sequence while
leaving cells outside the region untouched, and returns an index `p`
inside the region with every region cell left of `p` at most the pivot
value and every region cell right of `p` at least the pivot value. -/
theorem C7_partition_hoare (a : List Int) (s e : Nat)
    (hse : s ≤ e) (he : e < a.length) :
    s ≤ (Partition_hoare_P a s e).2 ∧ (Partition_hoare_P a s e).2 ≤ e ∧
      (Partition_hoare_P a s e).1.Perm a ∧
      (∀ i, i < s ∨ e < i →
        (Partition_hoare_P a s e).1.getD i 0 = a.getD i 0) ∧
      (∀ i, s ≤ i → i < (Partition_hoare_P a s e).2 →
        (Partition_hoare_P a s e).1.getD i 0 ≤ a.getD e 0) ∧
      (∀ i, (Partition_hoare_P a s e).2 < i → i ≤ e →
        a.getD e 0 ≤ (Partition_hoare_P a s e).1.getD i 0) := by
  obtain ⟨m1, m2, m3, m4, m5, m6, m7⟩ := Partition_hoare_correct a s e hse he
  exact ⟨m1, m2, m4, m5, m6, m7⟩

/-- C7, witness: the partition theorem applied to the region `[0, 2]` of
`[3,1,2]`. -/
theorem C7_partition_hoare_witness :
    (0 : Nat) ≤ 2 ∧ 2 < ([3, 1, 2] : List Int).length ∧
      (0 ≤ (Partition_hoare_P ([3, 1, 2] : List Int) 0 2).2 ∧
        (Partition_hoare_P ([3, 1, 2] : List Int) 0 2).2 ≤ 2 ∧
        (Partition_hoare_P ([3, 1, 2] : List Int) 0 2).1.Perm [3, 1, 2] ∧
        (∀ i, i < 0 ∨ 2 < i →
          (Partition_hoare_P ([3, 1, 2] : List Int) 0 2).1.getD i 0 =
            ([3, 1, 2] : List Int).getD i 0) ∧
        (∀ i, 0 ≤ i → i < (Partition_hoare_P ([3, 1, 2] : List Int) 0 2).2 →
          (Partition_hoare_P ([3, 1, 2] : List Int) 0 2).1.getD i 0 ≤
            ([3, 1, 2] : List Int).getD 2 0) ∧
        (∀ i, (Partition_hoare_P ([3, 1, 2] : List Int) 0 2).2 < i → i ≤ 2 →
          ([3, 1, 2] : List Int).getD 2 0 ≤
            (Partition_hoare_P ([3, 1, 2] : List Int) 0 2).1.getD i 0)) :=
  ⟨by decide, by decide, C7_partition_hoare [3, 1, 2] 0 2 (by decide) (by decide)⟩

/-- C8: for regions of length at most 2 `Sort_quicksort_array` neither
recurses nor partitions: an empty (`e+1 = s`) or one-element (`e = s`)
region is returned unchanged, a two-element region is ordered by the
single compare-and-swap, `[9,4]` becomes `[4,9]`, and the recursive call
a pivot at the region start would produce — the region `(s, s-1)` as
uint16 values, which is `(0, 65535)` when `s = 0` — has wrapped length 0
and is a no-op, so no index underflow is observable. -/
theorem C8_quicksort_base (a : List Int) (s e : Nat)
    (hs : s < 65536) (he : e < 65536) :
    (e + 1 = s → Sort_quicksort_array a s e = a) ∧
      (e = s → Sort_quicksort_array a s e = a) ∧
      (e = s + 1 → Sort_quicksort_array a s e =
        (if a.getD e 0 < a.getD s 0 then swap a s e else a)) ∧
      Sort_quicksort_array a s ((s + 65535) % 65536) = a ∧
      Sort_quicksort_array [9, 4] 0 1 = [4, 9] := by
  have hs' : s % 65536 = s := Nat.mod_eq_of_lt hs
  have he' : e % 65536 = e := Nat.mod_eq_of_lt he
  refine ⟨?_, ?_, ?_, ?_, ?_⟩
  · intro h
    have hlen : (e % 65536 + 1 + 65536 - s % 65536) % 65536 = 0 := by omega
    rw [Sort_quicksort_array]
    simp [hlen]
  · intro h
    have hlen : (e % 65536 + 1 + 65536 - s % 65536) % 65536 = 1 := by omega
    rw [Sort_quicksort_array]
    simp [hlen]
  · intro h
    have hlen : (e + 1 + 65536 - s) % 65536 = 2 := by omega
    rw [Sort_quicksort_array]
    simp [hs', he', hlen]
  · have hlen : ((s + 65535) % 65536 + 1 + 65536 - s % 65536) % 65536 = 0 := by
      omega
    rw [Sort_quicksort_array]
    simp [hlen]
  · simp [Sort_quicksort_array, swap]

/-- C8, witness: the base-case theorem applied to `[9,4]` with the
two-element region `[0, 1]`. -/
theorem C8_quicksort_base_witness :
    (0 : Nat) < 65536 ∧ (1 : Nat) < 65536 ∧
      ((1 + 1 = 0 → Sort_quicksort_array ([9, 4] : List Int) 0 1 = [9, 4]) ∧
        ((1 : Nat) = 0 → Sort_quicksort_array ([9, 4] : List Int) 0 1 = [9, 4]) ∧
        ((1 : Nat) = 0 + 1 → Sort_quicksort_array ([9, 4] : List Int) 0 1 =
          (if ([9, 4] : List Int).getD 1 0 < ([9, 4] : List Int).getD 0 0 then
            swap [9, 4] 0 1
          else [9, 4])) ∧
        Sort_quicksort_array ([9, 4] : List Int) 0 ((0 + 65535) % 65536) = [9, 4] ∧
        Sort_quicksort_array ([9, 4] : List Int) 0 1 = [4, 9]) :=
  ⟨by decide, by decide, C8_quicksort_base [9, 4] 0 1 (by decide) (by decide)⟩

/-- C9: `Heap_sift_up` only permutes the sequence (by parent/child
swaps), is the identity as soon as the start index is the root or its
value does not exceed its parent's, and — climbing while the value
exceeds the parent — restores the heap property over `[0, i]` whenever it
held over `[0, i-1]` (the frontier-insertion contract). -/
theorem C9_sift_up (a : List Int) (i : Nat) (hi : i < a.length) :
    (Heap_sift_up a i).Perm a ∧
      ((i = 0 ∨ a.getD i 0 ≤ a.getD ((i - 1) / 2) 0) → Heap_sift_up a i = a) ∧
      ((∀ p j, j < i → (j = 2 * p + 1 ∨ j = 2 * p + 2) →
        a.getD j 0 ≤ a.getD p 0) →
        ∀ p j, j ≤ i → (j = 2 * p + 1 ∨ j = 2 * p + 2) →
          (Heap_sift_up a i).getD j 0 ≤ (Heap_sift_up a i).getD p 0) := by
  refine ⟨sift_up_perm i a hi, ?_, ?_⟩
  · intro h
    by_cases h0 : i = 0
    · rw [h0, sift_up_zero]
    · rcases h with h | hle
      · exact absurd h h0
      · exact sift_up_of_stop a i h0 (not_lt.mpr hle)
  · intro hpre p j hj hcj
    refine sift_up_restore i i a le_rfl hi ?_ ?_ p j hj hcj
    · intro q j2 hj2 hcj2 hne
      exact hpre q j2 (by omega) hcj2
    · intro j2 hcj2 hj2 hne
      omega

/-- C9, witness: the sift-up theorem applied to `[1,5]` at index 1. -/
theorem C9_sift_up_witness :
    (1 : Nat) < ([1, 5] : List Int).length ∧
      ((Heap_sift_up ([1, 5] : List Int) 1).Perm [1, 5] ∧
        ((1 = 0 ∨ ([1, 5] : List Int).getD 1 0 ≤ ([1, 5] : List Int).getD ((1 - 1) / 2) 0) →
          Heap_sift_up ([1, 5] : List Int) 1 = [1, 5]) ∧
        ((∀ p j, j < 1 → (j = 2 * p + 1 ∨ j = 2 * p + 2) →
          ([1, 5] : List Int).getD j 0 ≤ ([1, 5] : List Int).getD p 0) →
          ∀ p j, j ≤ 1 → (j = 2 * p + 1 ∨ j = 2 * p + 2) →
            (Heap_sift_up ([1, 5] : List Int) 1).getD j 0 ≤
              (Heap_sift_up ([1, 5] : List Int) 1).getD p 0)) :=
  ⟨by decide, C9_sift_up [1, 5] 1 (by decide)⟩

/-- C10: each heap operation — `Heap_sift_up`, `Heap_sift_down`, one full
cycle of the extraction loop, and the whole extraction loop — only swaps
pairs of cells, so the result is a permutation of the sequence (the
stored multiset of values is preserved). -/
theorem C10_heap_ops_permute (a : List Int) (i c l : Nat)
    (hi : i < a.length) (hl : l < a.length) :
    (Heap_sift_up a i).Perm a ∧ (Heap_sift_down a c l).Perm a ∧
      (∀ m, m + 1 ≤ l → (Heap_sift_down (swap a 0 (m + 1)) 0 m).Perm a) ∧
      (popLoop a l).Perm a := by
  refine ⟨sift_up_perm i a hi, sift_down_perm l a c hl, ?_, popLoop_perm l a hl⟩
  intro m hm
  exact (sift_down_perm m _ 0 (by rw [length_swap]; omega)).trans
    (swap_perm a 0 (m + 1) (by omega) (by omega))

/-- C10, witness: the permutation theorem applied to `[2,1,3]`. -/
theorem C10_heap_ops_permute_witness :
    (1 : Nat) < ([2, 1, 3] : List Int).length ∧
      (2 : Nat) < ([2, 1, 3] : List Int).length ∧
      ((Heap_sift_up ([2, 1, 3] : List Int) 1).Perm [2, 1, 3] ∧
        (Heap_sift_down ([2, 1, 3] : List Int) 0 2).Perm [2, 1, 3] ∧
        (∀ m, m + 1 ≤ 2 →
          (Heap_sift_down (swap ([2, 1, 3] : List Int) 0 (m + 1)) 0 m).Perm [2, 1, 3]) ∧
        (popLoop ([2, 1, 3] : List Int) 2).Perm [2, 1, 3]) :=
  ⟨by decide, by decide, C10_heap_ops_permute [2, 1, 3] 1 0 2 (by decide) (by decide)⟩

end CAlgos
